import Mathlib

/-!
Verification of the certification path building engine of this snapshot
(net/cert/internal): the TrustStore (net/cert/internal/trust_store.cc), the
Result aggregation model (net/cert/internal/path_builder.h), and the
CertPathIter / CertPathBuilder search engine.  The implementation file
path_builder.cc is absent from the snapshot (only its header, its unit tests
and trust_store.cc are present), so the iterator and builder are modelled
from the specification, with the repository's unit tests
(path_builder_unittest.cc) fixing the points the spec leaves open.

Certificates (ParsedCertificate) are opaque reference-counted values exposing
a normalized subject name, a normalized issuer name and SPKI bytes; byte
strings are modelled as `List Nat` and pointer identity as a numeric object
id.
-/

namespace ChromiumNet

/-- Net error code `OK` (success). -/
def OK : Int := 0

/-- Net error code `ERR_UNEXPECTED` (-9), the default value of
`CertPathBuilder::ResultPath::error` in path_builder.h. -/
def ERR_UNEXPECTED : Int := -9

/-- Net error code `ERR_CERT_AUTHORITY_INVALID` (-202), the "no valid path"
sentinel returned by `CertPathBuilder::Result::error()` when no path was
attempted. -/
def ERR_CERT_AUTHORITY_INVALID : Int := -202

/-- `CompletionStatus` (net/cert/internal/completion_status.h): whether an
operation completed synchronously or will complete asynchronously. -/
inductive CompletionStatus where
  | SYNC
  | ASYNC
deriving DecidableEq, Repr

/-- A parsed certificate (`ParsedCertificate`), modelled shallowly: `id` is
the object identity (the C++ pointer), `subject` the normalized subject name
bytes (`normalized_subject()`), `issuer` the normalized issuer name bytes,
and `spki` the SPKI bytes (`tbs().spki_tlv`). -/
structure Cert where
  id : Nat
  subject : List Nat
  issuer : List Nat
  spki : List Nat
deriving DecidableEq, Repr

/-- The Name+SPKI key under which two distinct certificate objects count as
"the same certificate" for trust matching and loop avoidance. -/
def Cert.key (c : Cert) : List Nat × List Nat := (c.subject, c.spki)

/-- `TrustStore` (net/cert/internal/trust_store.cc): a multimap from
normalized subject name to anchor certificate, modelled as the
insertion-ordered list of stored anchors (each anchor is keyed by its own
`normalized_subject()`, see `TrustStore::AddTrustedCertificate`). -/
structure TrustStore where
  anchors : List Cert
deriving DecidableEq, Repr

/-- `TrustStore::AddTrustedCertificate`: inserts the anchor into the
multimap keyed by its normalized subject (duplicates permitted). -/
def TrustStore.AddTrustedCertificate (ts : TrustStore) (anchor : Cert) : TrustStore :=
  ⟨ts.anchors ++ [anchor]⟩

/-- The `anchors_.equal_range(name)` traversal: the stored anchors whose key
(their own normalized subject) equals `name`, in insertion order. -/
def TrustStore.equalRange (ts : TrustStore) (name : List Nat) : List Cert :=
  ts.anchors.filter (fun a => decide (a.subject = name))

/-- The loop body of `TrustStore::FindTrustAnchorsByNormalizedName`: walk the
equal range, push each anchor onto the output list. -/
def findAnchorsLoop : List Cert → List Cert → List Cert
  | [], outList => outList
  | a :: rest, outList => findAnchorsLoop rest (outList ++ [a])

/-- `TrustStore::FindTrustAnchorsByNormalizedName`: appends every anchor
whose normalized subject equals `normalized_name` to `outList` (no clearing
of the output list). -/
def TrustStore.FindTrustAnchorsByNormalizedName (ts : TrustStore) (normalized_name : List Nat)
    (outList : List Cert) : List Cert :=
  findAnchorsLoop (ts.equalRange normalized_name) outList

/-- The loop body of `TrustStore::IsTrustedCertificate`: walk the equal range
of `cert`'s normalized subject; return true on the first anchor that is
pointer-identical to `cert` or agrees with it on (normalized subject, SPKI). -/
def isTrustedLoop (cert : Cert) : List Cert → Bool
  | [] => false
  | a :: rest =>
    if a.id = cert.id ∨ (a.subject = cert.subject ∧ a.spki = cert.spki) then true
    else isTrustedLoop cert rest

/-- `TrustStore::IsTrustedCertificate`. -/
def TrustStore.IsTrustedCertificate (ts : TrustStore) (cert : Cert) : Bool :=
  isTrustedLoop cert (ts.equalRange cert.subject)

/-- `CertPathBuilder::ResultPath` (path_builder.h): one attempted candidate
path (target first) together with the verifier's error code for it. -/
structure ResultPath where
  path : List Cert
  error : Int
deriving DecidableEq, Repr

/-- The default-constructed `ResultPath` (`int error = ERR_UNEXPECTED`). -/
def ResultPath.default : ResultPath := ⟨[], ERR_UNEXPECTED⟩

/-- `CertPathBuilder::Result` (path_builder.h): every attempted path and the
index of the best one. -/
structure Result where
  paths : List ResultPath
  best_result_index : Nat
deriving DecidableEq, Repr

/-- The default-constructed `Result` (`best_result_index = 0`). -/
def Result.empty : Result := ⟨[], 0⟩

/-- `CertPathBuilder::Result::error()` (path_builder.h lines 73-77): the
sentinel `ERR_CERT_AUTHORITY_INVALID` when no path was attempted, otherwise
the error of `paths[best_result_index]` (the C++ indexing is unchecked; an
out-of-range index is modelled by the default `ResultPath`). -/
def Result.error (r : Result) : Int :=
  if r.paths.isEmpty then ERR_CERT_AUTHORITY_INVALID
  else (r.paths.getD r.best_result_index ResultPath.default).error

/-- Modelled from the spec: `CertPathBuilder::AddResultPath`
(path_builder.cc is absent from the snapshot).  Appends the new `ResultPath`
to `Result.paths` and updates the best index: "the first result with no
error becomes and remains best; if no result ever succeeds, the best index
points at the most recently attempted (last) path" — so the current best is
kept exactly when it verified OK, and otherwise the best index moves to the
newly appended path. -/
def AddResultPath (r : Result) (rp : ResultPath) : Result :=
  { paths := r.paths ++ [rp]
    best_result_index :=
      if ¬ r.paths.isEmpty ∧ (r.paths.getD r.best_result_index ResultPath.default).error = OK then
        r.best_result_index
      else r.paths.length }

/-- The index of the first attempted path whose error is `OK`. -/
def firstOkIdx? : List ResultPath → Option Nat
  | [] => none
  | p :: rest => if p.error = OK then some 0 else (firstOkIdx? rest).map (· + 1)

/-- The index the spec designates as best: the first successful attempt if
one exists, otherwise the last attempt. -/
def firstOkIndexOrLast (ps : List ResultPath) : Nat :=
  (firstOkIdx? ps).getD (ps.length - 1)

/-- A `CertIssuerSource`: a registered collaborator supplying candidate
issuer certificates, with a synchronous part (`SyncGetIssuersOf`) and an
asynchronous part (`AsyncGetIssuersOf`), each modelled by the list of
certificates the source can deliver through that channel. -/
structure CertIssuerSource where
  sync : List Cert
  async : List Cert
deriving DecidableEq, Repr

/-- One `CertPathBuilder` configuration: the target certificate, the trust
store, and the registered issuer sources in registration order. -/
structure Config where
  target : Cert
  trust_store : TrustStore
  sources : List CertIssuerSource
deriving DecidableEq, Repr

/-- All certificates a source can deliver synchronously, across all
registered sources in registration order. -/
def collectSync : List CertIssuerSource → List Cert
  | [] => []
  | s :: rest => s.sync ++ collectSync rest

/-- All certificates the sources can deliver asynchronously, across all
registered sources. -/
def collectAsync : List CertIssuerSource → List Cert
  | [] => []
  | s :: rest => s.async ++ collectAsync rest

/-- The certificates of `certs` whose normalized subject equals `name`
(a source answers a query for issuers of a certificate with its stored
certificates whose subject matches that certificate's issuer name). -/
def issuersMatching (certs : List Cert) (name : List Nat) : List Cert :=
  certs.filter (fun c => decide (c.subject = name))

/-- Deduplication of a candidate worklist by Name+SPKI key, keeping the
first occurrence; `seen` holds the keys already kept. -/
def dedupByKeyAux (seen : List (List Nat × List Nat)) : List Cert → List Cert
  | [] => []
  | c :: rest =>
    if c.key ∈ seen then dedupByKeyAux seen rest
    else c :: dedupByKeyAux (c.key :: seen) rest

/-- Deduplication of a candidate worklist by Name+SPKI key (spec §4.3 step 3:
"the same Name+SPKI issuer supplied by two sources, or the same source twice,
is tried only once"). -/
def dedupByKey (cs : List Cert) : List Cert := dedupByKeyAux [] cs

/-- Whether a certificate with key `k` already appears in the current path
(loop prevention, spec §4.3 step 3). -/
def pathContainsKey (path : List Cert) (c : Cert) : Bool :=
  path.any (fun p => decide (p.key = c.key))

/-- Modelled from the spec: the synchronous candidate worklist for a frontier
certificate (spec §4.3 step 2: the trust store's anchors matching the
frontier's issuer name; if none, the synchronous answers of every registered
source; step 3: deduplicated by Name+SPKI against each other and against the
certificates already on the path).  path_builder.cc, which implements
CertPathIter, is absent from the snapshot. -/
def syncCandidates (cfg : Config) (path : List Cert) (frontier : Cert) : List Cert :=
  let anchors := cfg.trust_store.FindTrustAnchorsByNormalizedName frontier.issuer []
  let fromSources :=
    if anchors.isEmpty then issuersMatching (collectSync cfg.sources) frontier.issuer else []
  (dedupByKey (anchors ++ fromSources)).filter (fun c => ¬ pathContainsKey path c)

/-- Modelled from the spec: the asynchronous candidate worklist for a
frontier certificate, consulted only after the synchronous worklist `tried`
is exhausted; deduplicated against itself, the path, and the synchronous
candidates already tried (spec §4.3 steps 2-3).  path_builder.cc is absent
from the snapshot. -/
def asyncCandidates (cfg : Config) (path : List Cert) (frontier : Cert)
    (tried : List Cert) : List Cert :=
  (dedupByKey (issuersMatching (collectAsync cfg.sources) frontier.issuer)).filter
    (fun c => ¬ (pathContainsKey path c ∨ pathContainsKey tried c))

/-- An observable event of the search: an `AsyncGetIssuersOf` call against
the source with the given registration index for the given frontier
certificate, or a complete candidate path handed to the builder. -/
inductive Event where
  | asyncQuery (source : Nat) (frontier : Cert)
  | yield (path : List Cert)
deriving DecidableEq, Repr

/-- Concatenation of the event lists of the subtrees of a worklist. -/
def joinEvents : List (List Event) → List Event
  | [] => []
  | l :: rest => l ++ joinEvents rest

/-- Modelled from the spec: `CertPathIter`, the depth-first backtracking
search (path_builder.cc is absent from the snapshot).  From the state
(path so far = `stem ++ [frontier]`): if the frontier certificate is itself
a trust anchor the path is yielded as a complete candidate and the iterator
backtracks (spec §4.3 step 1); otherwise each synchronous candidate is
pushed and explored in order, and — when asynchronous queries are allowed
and the trust store offered no anchor for the frontier's issuer name — once
the synchronous worklist is exhausted every registered source is queried
asynchronously (simultaneously, one `asyncQuery` event per source) and the
asynchronous candidates are explored in turn (spec §4.3 steps 2-5).  `fuel`
bounds the recursion depth; `iterFuel` below always suffices. -/
def certPathIter (cfg : Config) (allowAsync : Bool) : Nat → List Cert → Cert → List Event
  | 0, _, _ => []
  | fuel+1, stem, frontier =>
    let path := stem ++ [frontier]
    if cfg.trust_store.IsTrustedCertificate frontier then [Event.yield path]
    else
      let syncW := syncCandidates cfg path frontier
      let syncEvents := joinEvents (syncW.map (fun c => certPathIter cfg allowAsync fuel path c))
      if allowAsync ∧
          (cfg.trust_store.FindTrustAnchorsByNormalizedName frontier.issuer []).isEmpty then
        let queries := (List.range cfg.sources.length).map (fun si => Event.asyncQuery si frontier)
        let asyncW := asyncCandidates cfg path frontier syncW
        syncEvents ++ queries ++
          joinEvents (asyncW.map (fun c => certPathIter cfg allowAsync fuel path c))
      else syncEvents

/-- Every certificate the configuration can ever hand to the search: the
stored anchors and the synchronous and asynchronous certificates of every
registered source. -/
def allCerts (cfg : Config) : List Cert :=
  cfg.trust_store.anchors ++ collectSync cfg.sources ++ collectAsync cfg.sources

/-- A recursion budget sufficient for the search to run to exhaustion. -/
def iterFuel (cfg : Config) : Nat := (allCerts cfg).length + 1

/-- Whether an event is a yielded path that the external verifier accepts. -/
def isOkYield (verify : List Cert → Int) : Event → Bool
  | Event.yield p => decide (verify p = OK)
  | _ => false

/-- Modelled from the spec: the portion of the search the builder actually
drives.  The builder pulls candidate paths one at a time and verifies each;
after the first path that verifies OK it stops requesting further paths
(established by the repository's unit tests, e.g.
PathBuilderKeyRolloverTest.TestRolloverBothRootsTrusted, which observes a
single attempted path although a second candidate exists), so the events
after the first successful yield never happen. -/
def consumeTrace (verify : List Cert → Int) : List Event → List Event
  | [] => []
  | e :: rest => if isOkYield verify e then [e] else e :: consumeTrace verify rest

/-- The candidate paths yielded within a list of events, in order. -/
def yieldedPaths : List Event → List (List Cert)
  | [] => []
  | Event.yield p :: rest => p :: yieldedPaths rest
  | _ :: rest => yieldedPaths rest

/-- The number of `AsyncGetIssuersOf` calls against source `si` within a
list of events. -/
def countAsyncQueries (si : Nat) : List Event → Nat
  | [] => 0
  | Event.asyncQuery s _ :: rest =>
    (if s = si then 1 else 0) + countAsyncQueries si rest
  | _ :: rest => countAsyncQueries si rest

/-- Whether a list of events contains any asynchronous query. -/
def hasAsyncQuery : List Event → Bool
  | [] => false
  | Event.asyncQuery _ _ :: _ => true
  | _ :: rest => hasAsyncQuery rest

/-- The outcome of one `CertPathBuilder::Run`: its `CompletionStatus`, the
caller's `Result`, and the number of `AsyncGetIssuersOf` calls observed by
each registered source (by registration index). -/
structure RunOutcome where
  status : CompletionStatus
  result : Result
  asyncGets : List Nat
deriving DecidableEq, Repr

/-- Modelled from the spec: `CertPathBuilder::Run` with an explicit
recursion budget for the iterator (path_builder.cc is absent from the
snapshot).  `callback` records whether a completion callback was supplied;
when it is false the builder operates in synchronous-only mode and never
issues asynchronous queries (path_builder.h lines 125-126).  The builder
verifies each pulled path, records a `ResultPath` for it via
`AddResultPath`, stops after the first success, and completes SYNC exactly
when no asynchronous query was issued before completion. -/
def RunWithFuel (cfg : Config) (verify : List Cert → Int) (callback : Bool)
    (fuel : Nat) : RunOutcome :=
  let trace := certPathIter cfg callback fuel [] cfg.target
  let consumed := consumeTrace verify trace
  let attempts := (yieldedPaths consumed).map (fun p => ResultPath.mk p (verify p))
  { status := if hasAsyncQuery consumed then CompletionStatus.ASYNC else CompletionStatus.SYNC
    result := attempts.foldl AddResultPath Result.empty
    asyncGets := (List.range cfg.sources.length).map (fun si => countAsyncQueries si consumed) }

/-- Modelled from the spec: `CertPathBuilder::Run` (path_builder.cc is
absent from the snapshot), driving the search to completion. -/
def Run (cfg : Config) (verify : List Cert → Int) (callback : Bool) : RunOutcome :=
  RunWithFuel cfg verify callback (iterFuel cfg)

/-- The configuration with every source's asynchronous certificates removed:
what the search can reach from purely synchronous answers. -/
def stripAsyncCerts (cfg : Config) : Config :=
  { cfg with sources := cfg.sources.map (fun s => { s with async := [] }) }

/-- The Name+SPKI key sequence of a candidate path. -/
def keySeq (p : List Cert) : List (List Nat × List Nat) := p.map Cert.key

/-- How many attempted paths of a `Result` pass through a certificate with
the given Name+SPKI key. -/
def pathsThroughKey (r : Result) (k : List Nat × List Nat) : Nat :=
  (r.paths.filter (fun rp => decide (k ∈ keySeq rp.path))).length

/-- The number of certificates offered by the configuration whose Name+SPKI
key does not yet occur on the current path: the strictly decreasing measure
of the depth-first search. -/
def freshCount (cfg : Config) (path : List Cert) : Nat :=
  ((allCerts cfg).filter (fun c => ¬ pathContainsKey path c)).length

/-- The attempted paths the builder derives from a stream of yielded
candidate paths: every path up to and including the first one the verifier
accepts. -/
def attemptsUpToFirstOk (verify : List Cert → Int) : List (List Cert) → List (List Cert)
  | [] => []
  | p :: rest => if verify p = OK then [p] else p :: attemptsUpToFirstOk verify rest

/-! Concrete scenarios.  Names are single-byte strings; certificate `id`s
stand for distinct in-memory objects. -/

/-- Cyclic scenario (spec §8 termination): certificate A issued by B. -/
def certA : Cert := ⟨41, [1], [2], [10]⟩

/-- Cyclic scenario: certificate B issued by A. -/
def certB : Cert := ⟨42, [2], [1], [20]⟩

/-- Cyclic configuration: A and B issue each other, nothing is trusted. -/
def cfgCycle : Config := ⟨certA, ⟨[]⟩, [⟨[certA, certB], []⟩]⟩

/-- A verifier rejecting every path. -/
def verifyNone : List Cert → Int := fun _ => ERR_CERT_AUTHORITY_INVALID

/-- Target-is-anchor scenario: a self-issued certificate. -/
def certT5 : Cert := ⟨51, [1], [1], [10]⟩

/-- Target-is-anchor configuration: the target itself is the only anchor. -/
def cfgSelf : Config := ⟨certT5, ⟨[certT5]⟩, []⟩

/-- A verifier accepting exactly the trivial path consisting of the target. -/
def verifySelf : List Cert → Int :=
  fun p => if p = [certT5] then OK else ERR_CERT_AUTHORITY_INVALID

/-- Dead-end scenario: the target certificate. -/
def certT6 : Cert := ⟨61, [1], [2], [10]⟩

/-- Dead-end scenario: a synchronously supplied issuer of the target whose
own issuer is nowhere to be found (the dead end). -/
def certX6 : Cert := ⟨62, [2], [3], [20]⟩

/-- Dead-end scenario: a synchronously supplied issuer of the target that is
directly issued by the anchor. -/
def certY6 : Cert := ⟨63, [2], [5], [21]⟩

/-- Dead-end scenario: the trust anchor. -/
def certR6 : Cert := ⟨64, [5], [5], [50]⟩

/-- Dead-end scenario: an unrelated certificate held by the asynchronous
source. -/
def certZ6 : Cert := ⟨65, [7], [7], [70]⟩

/-- Dead-end configuration: the synchronous source offers the dead end X
before the viable issuer Y; a second, purely asynchronous source is
registered. -/
def cfgDeadEnd : Config := ⟨certT6, ⟨[certR6]⟩, [⟨[certX6, certY6], []⟩, ⟨[], [certZ6]⟩]⟩

/-- A verifier accepting exactly the path target-Y-anchor. -/
def verifyDeadEnd : List Cert → Int :=
  fun p => if p = [certT6, certY6, certR6] then OK else ERR_CERT_AUTHORITY_INVALID

/-- Sync-first scenario (mirroring PathBuilderMultiRootTest.TriesSyncFirst):
the target A issued by B. -/
def certA6 : Cert := ⟨71, [1], [2], [11]⟩

/-- Sync-first scenario: B issued by F, supplied synchronously. -/
def certBF6 : Cert := ⟨72, [2], [6], [22]⟩

/-- Sync-first scenario: F issued by E, supplied synchronously. -/
def certFE6 : Cert := ⟨73, [6], [5], [66]⟩

/-- Sync-first scenario: the self-issued trust anchor E. -/
def certEE6 : Cert := ⟨74, [5], [5], [55]⟩

/-- Sync-first scenario: B issued by C (same subject and SPKI as B-by-F),
supplied asynchronously. -/
def certBC6 : Cert := ⟨75, [2], [3], [22]⟩

/-- Sync-first scenario: C issued by E, supplied asynchronously. -/
def certCE6 : Cert := ⟨76, [3], [5], [33]⟩

/-- Sync-first configuration: the anchor is reachable in two hops through
the synchronous source and in two hops through the asynchronous source,
which is registered first (as in the unit test). -/
def cfgSyncFirst : Config :=
  ⟨certA6, ⟨[certEE6]⟩, [⟨[], [certBC6, certCE6]⟩, ⟨[certBF6, certFE6], []⟩]⟩

/-- A verifier accepting exactly the synchronous chain A-B-F-E. -/
def verifySyncFirst : List Cert → Int :=
  fun p => if p = [certA6, certBF6, certFE6, certEE6] then OK else ERR_CERT_AUTHORITY_INVALID

/-- Duplicate-intermediate scenario (mirroring
PathBuilderKeyRolloverTest.TestDuplicateIntermediates): the target. -/
def certT7 : Cert := ⟨81, [1], [2], [12]⟩

/-- Duplicate-intermediate scenario: the trust anchor. -/
def certR7 : Cert := ⟨82, [5], [5], [50]⟩

/-- Duplicate-intermediate scenario: the old intermediate, supplied by the
first synchronous source. -/
def certI7 : Cert := ⟨83, [2], [5], [20]⟩

/-- Duplicate-intermediate scenario: a distinct in-memory copy of the old
intermediate (same Name+SPKI, different object id), supplied by the second
synchronous source. -/
def certI7d : Cert := ⟨84, [2], [5], [20]⟩

/-- Duplicate-intermediate scenario: the new intermediate, supplied
asynchronously. -/
def certN7 : Cert := ⟨85, [2], [5], [22]⟩

/-- Duplicate-intermediate configuration: the same issuer certificate is
supplied by two different sources as two distinct objects. -/
def cfgDup : Config :=
  ⟨certT7, ⟨[certR7]⟩, [⟨[certI7], []⟩, ⟨[certI7d], []⟩, ⟨[], [certN7]⟩]⟩

/-- A verifier accepting exactly the path through the new intermediate. -/
def verifyDup : List Cert → Int :=
  fun p => if p = [certT7, certN7, certR7] then OK else ERR_CERT_AUTHORITY_INVALID

/-- Long-chain scenario (mirroring PathBuilderMultiRootTest.TestLongChain):
the target A issued by B. -/
def certA8 : Cert := ⟨91, [1], [2], [10]⟩

/-- Long-chain scenario: B issued by C, supplied synchronously. -/
def certBC8 : Cert := ⟨92, [2], [3], [20]⟩

/-- Long-chain scenario: C issued by D — both a trust anchor and a
synchronously supplied certificate. -/
def certCD8 : Cert := ⟨93, [3], [4], [30]⟩

/-- Long-chain scenario: the self-issued trust anchor D. -/
def certDD8 : Cert := ⟨94, [4], [4], [40]⟩

/-- Long-chain configuration: both D-by-D and C-by-D are trusted roots, and
B-by-C and C-by-D are supplied synchronously, so a longer also-valid
continuation through D exists past the anchor C. -/
def cfgLong : Config := ⟨certA8, ⟨[certDD8, certCD8]⟩, [⟨[certBC8, certCD8], []⟩]⟩

/-- A verifier accepting any path ending at the anchor C-by-D. -/
def verifyLong : List Cert → Int :=
  fun p => if p = [certA8, certBC8, certCD8] then OK else ERR_CERT_AUTHORITY_INVALID

/-- Trust-store scenario: a stored anchor. -/
def certAnch : Cert := ⟨101, [1], [1], [10]⟩

/-- Trust-store scenario: a second stored anchor with a different name. -/
def certAnch2 : Cert := ⟨102, [2], [2], [20]⟩

/-- Trust-store scenario: a distinct certificate object with the same
normalized subject and SPKI as the first anchor. -/
def certAnchDupe : Cert := ⟨103, [1], [1], [10]⟩

/-- A concrete trust store holding the two anchors. -/
def tsEx : TrustStore := ⟨[certAnch, certAnch2]⟩

/-- A concrete two-path `Result` whose first path failed and whose second
path succeeded. -/
def rTwo : Result := ⟨[⟨[certA8], ERR_CERT_AUTHORITY_INVALID⟩, ⟨[certA8, certBC8], OK⟩], 1⟩

/-! ## Trust store lemmas -/

theorem findAnchorsLoop_eq (l : List Cert) : ∀ outList, findAnchorsLoop l outList = outList ++ l := by
  induction l with
  | nil => intro outList; simp [findAnchorsLoop]
  | cons a rest ih => intro outList; simp [findAnchorsLoop, ih]

theorem FindTrustAnchors_eq (ts : TrustStore) (name : List Nat) (outList : List Cert) :
    ts.FindTrustAnchorsByNormalizedName name outList = outList ++ ts.equalRange name := by
  simp [TrustStore.FindTrustAnchorsByNormalizedName, findAnchorsLoop_eq]

theorem mem_equalRange {ts : TrustStore} {name : List Nat} {a : Cert} :
    a ∈ ts.equalRange name ↔ a ∈ ts.anchors ∧ a.subject = name := by
  simp [TrustStore.equalRange, List.mem_filter]

theorem isTrustedLoop_eq_true_iff {c : Cert} {l : List Cert} :
    isTrustedLoop c l = true ↔
      ∃ a ∈ l, a.id = c.id ∨ (a.subject = c.subject ∧ a.spki = c.spki) := by
  induction l with
  | nil => simp [isTrustedLoop]
  | cons a rest ih =>
    by_cases h : a.id = c.id ∨ (a.subject = c.subject ∧ a.spki = c.spki)
    · simp [isTrustedLoop, h]
    · simp only [isTrustedLoop, if_neg h, ih, List.mem_cons]
      constructor
      · rintro ⟨b, hb, hcond⟩; exact ⟨b, Or.inr hb, hcond⟩
      · rintro ⟨b, hb | hb, hcond⟩
        · exact absurd (hb ▸ hcond) h
        · exact ⟨b, hb, hcond⟩

theorem IsTrustedCertificate_eq_true_iff {ts : TrustStore} {c : Cert} :
    ts.IsTrustedCertificate c = true ↔
      ∃ a ∈ ts.anchors, a.subject = c.subject ∧ (a.id = c.id ∨ a.spki = c.spki) := by
  unfold TrustStore.IsTrustedCertificate
  rw [isTrustedLoop_eq_true_iff]
  constructor
  · rintro ⟨a, ha, hcond⟩
    obtain ⟨hmem, hsubj⟩ := mem_equalRange.mp ha
    rcases hcond with hid | ⟨_, hspki⟩
    · exact ⟨a, hmem, hsubj, Or.inl hid⟩
    · exact ⟨a, hmem, hsubj, Or.inr hspki⟩
  · rintro ⟨a, hmem, hsubj, hcond⟩
    refine ⟨a, mem_equalRange.mpr ⟨hmem, hsubj⟩, ?_⟩
    rcases hcond with hid | hspki
    · exact Or.inl hid
    · exact Or.inr ⟨hsubj, hspki⟩

/-! ## Result aggregation lemmas -/

theorem foldl_AddResultPath_paths (ps : List ResultPath) : ∀ r : Result,
    (ps.foldl AddResultPath r).paths = r.paths ++ ps := by
  induction ps with
  | nil => intro r; simp
  | cons p rest ih => intro r; simp [ih, AddResultPath]

theorem firstOkIdx?_lt_length {ps : List ResultPath} {i : Nat} (h : firstOkIdx? ps = some i) :
    i < ps.length := by
  induction ps generalizing i with
  | nil => simp [firstOkIdx?] at h
  | cons p rest ih =>
    simp only [firstOkIdx?] at h
    by_cases hp : p.error = OK
    · rw [if_pos hp] at h
      cases h
      simp
    · rw [if_neg hp, Option.map_eq_some'] at h
      obtain ⟨j, hj, rfl⟩ := h
      simpa using Nat.succ_lt_succ (ih hj)

theorem firstOkIdx?_none_iff {ps : List ResultPath} :
    firstOkIdx? ps = none ↔ ∀ p ∈ ps, p.error ≠ OK := by
  induction ps with
  | nil => simp [firstOkIdx?]
  | cons p rest ih =>
    by_cases hp : p.error = OK
    · simp [firstOkIdx?, hp]
    · simp [firstOkIdx?, hp, ih]

theorem firstOkIdx?_getD {ps : List ResultPath} {i : Nat} (h : firstOkIdx? ps = some i) :
    (ps.getD i ResultPath.default).error = OK := by
  induction ps generalizing i with
  | nil => simp [firstOkIdx?] at h
  | cons p rest ih =>
    simp only [firstOkIdx?] at h
    by_cases hp : p.error = OK
    · rw [if_pos hp] at h
      cases h
      simpa using hp
    · rw [if_neg hp, Option.map_eq_some'] at h
      obtain ⟨j, hj, rfl⟩ := h
      simpa [List.getD] using ih hj

theorem firstOkIdx?_append_of_some {l : List ResultPath} {i : Nat} (r : List ResultPath)
    (h : firstOkIdx? l = some i) : firstOkIdx? (l ++ r) = some i := by
  induction l generalizing i with
  | nil => simp [firstOkIdx?] at h
  | cons p rest ih =>
    simp only [firstOkIdx?] at h
    simp only [List.cons_append, firstOkIdx?]
    by_cases hp : p.error = OK
    · rw [if_pos hp] at h ⊢; exact h
    · rw [if_neg hp] at h ⊢
      rw [Option.map_eq_some'] at h
      obtain ⟨j, hj, rfl⟩ := h
      simp only [List.append_eq]
      rw [ih hj]
      rfl

theorem firstOkIdx?_append_of_none {l : List ResultPath} (r : List ResultPath)
    (h : firstOkIdx? l = none) : firstOkIdx? (l ++ r) = (firstOkIdx? r).map (· + l.length) := by
  induction l with
  | nil => simp
  | cons p rest ih =>
    simp only [firstOkIdx?] at h
    simp only [List.cons_append, firstOkIdx?]
    by_cases hp : p.error = OK
    · rw [if_pos hp] at h; cases h
    · rw [if_neg hp] at h ⊢
      rw [Option.map_eq_none'] at h
      simp only [List.append_eq]
      rw [ih h]
      cases hr : firstOkIdx? r with
      | none => simp
      | some j =>
        simp only [Option.map_some', Option.some.injEq, List.length_cons]
        omega

theorem foldl_AddResultPath_best (ps : List ResultPath) (h : ps ≠ []) :
    (ps.foldl AddResultPath Result.empty).best_result_index = firstOkIndexOrLast ps ∧
    (ps.foldl AddResultPath Result.empty).best_result_index < ps.length := by
  induction ps using List.reverseRecOn with
  | nil => exact absurd rfl h
  | append_singleton ps p ih =>
    rw [List.foldl_append, List.foldl_cons, List.foldl_nil]
    by_cases hps : ps = []
    · subst hps
      by_cases hp : p.error = OK <;>
        simp [AddResultPath, Result.empty, firstOkIndexOrLast, firstOkIdx?, hp]
    · obtain ⟨ihb, ihlen⟩ := ih hps
      have hpaths : (ps.foldl AddResultPath Result.empty).paths = ps := by
        simpa [Result.empty] using foldl_AddResultPath_paths ps Result.empty
      have hne : (ps.isEmpty = false) := by simpa [List.isEmpty_iff] using hps
      cases hfi : firstOkIdx? ps with
      | some i =>
        have hbi : (ps.foldl AddResultPath Result.empty).best_result_index = i := by
          rw [ihb]; simp [firstOkIndexOrLast, hfi]
        have hok : (ps.getD (ps.foldl AddResultPath Result.empty).best_result_index
            ResultPath.default).error = OK := by
          rw [hbi]; exact firstOkIdx?_getD hfi
        have happ := firstOkIdx?_append_of_some [p] hfi
        constructor
        · simp only [AddResultPath, hpaths, hne, Bool.not_false, hok, and_true, if_pos,
            true_and, Bool.false_eq_true, not_false_eq_true]
          rw [hbi]
          simp [firstOkIndexOrLast, happ]
        · simp only [AddResultPath, hpaths, hne, hok, and_true, Bool.false_eq_true,
            not_false_eq_true, true_and, if_pos]
          have := firstOkIdx?_lt_length hfi
          rw [hbi]
          simp only [List.length_append, List.length_cons, List.length_nil]
          omega
      | none =>
        have hallbad := firstOkIdx?_none_iff.mp hfi
        have hnok : (ps.getD (ps.foldl AddResultPath Result.empty).best_result_index
            ResultPath.default).error ≠ OK := by
          have hgetd : ps.getD (ps.foldl AddResultPath Result.empty).best_result_index
              ResultPath.default
              = ps.get ⟨(ps.foldl AddResultPath Result.empty).best_result_index, ihlen⟩ := by
            rw [List.get_eq_getElem]
            exact List.getD_eq_getElem ps ResultPath.default ihlen
          rw [hgetd]
          exact hallbad _ (List.get_mem ps _ _)
        have hcond : ¬ (¬ ps.isEmpty = true ∧ (ps.getD (ps.foldl AddResultPath Result.empty).best_result_index
            ResultPath.default).error = OK) := fun hc => hnok hc.2
        have happ := firstOkIdx?_append_of_none [p] hfi
        constructor
        · simp only [AddResultPath, hpaths, if_neg hcond]
          by_cases hp : p.error = OK
          · have h1 : firstOkIdx? [p] = some 0 := by simp [firstOkIdx?, hp]
            rw [h1] at happ
            simp [firstOkIndexOrLast, happ]
          · have h1 : firstOkIdx? [p] = none := by simp [firstOkIdx?, hp]
            rw [h1] at happ
            simp [firstOkIndexOrLast, happ]
        · simp only [AddResultPath, hpaths, if_neg hcond]
          simp


/-! ## Claim theorems: trust store and result aggregation -/

theorem IsTrustedCertificate_mono {ts : TrustStore} {c : Cert} (d : Cert)
    (h : ts.IsTrustedCertificate c = true) :
    (ts.AddTrustedCertificate d).IsTrustedCertificate c = true := by
  rw [IsTrustedCertificate_eq_true_iff] at h ⊢
  obtain ⟨a, ha, hs, hc⟩ := h
  exact ⟨a, by simp [TrustStore.AddTrustedCertificate, ha], hs, hc⟩

theorem IsTrustedCertificate_foldl_mono (ds : List Cert) : ∀ (ts : TrustStore) (c : Cert),
    ts.IsTrustedCertificate c = true →
    (ds.foldl TrustStore.AddTrustedCertificate ts).IsTrustedCertificate c = true := by
  induction ds with
  | nil => intro ts c h; simpa using h
  | cons d rest ih => intro ts c h; exact ih _ _ (IsTrustedCertificate_mono d h)

/-- C10: `TrustStore::FindTrustAnchorsByNormalizedName` appends the matching
anchors to the caller-supplied output list without clearing it: for every
store, queried name and initial output list, the original elements are
unchanged and still in front, and exactly the stored anchors whose
normalized subject equals the queried name are appended after them. -/
theorem FindTrustAnchorsByNormalizedName_appends (ts : TrustStore) (name : List Nat)
    (outList : List Cert) :
    ts.FindTrustAnchorsByNormalizedName name outList =
      outList ++ ts.anchors.filter (fun a => decide (a.subject = name)) := by
  rw [FindTrustAnchors_eq]
  rfl

/-- C3: `IsTrustedCertificate(c)` returns true iff some stored anchor is
pointer-identical to `c` or has both the same normalized subject and the
same SPKI bytes as `c` (the hypothesis `hid` encodes the memory model:
an anchor with the same object identity as `c` is the same object and hence
carries the same subject and SPKI); in particular the test is true for `c`
immediately after `AddTrustedCertificate(c)`, true for every distinct
certificate object with the same (normalized subject, SPKI) pair, and it
remains true after any further `AddTrustedCertificate` calls. -/
theorem IsTrustedCertificate_spec (ts : TrustStore) (c : Cert)
    (hid : ∀ a ∈ ts.anchors, a.id = c.id → a.subject = c.subject ∧ a.spki = c.spki) :
    (ts.IsTrustedCertificate c = true ↔
      ∃ a ∈ ts.anchors, a.id = c.id ∨ (a.subject = c.subject ∧ a.spki = c.spki)) ∧
    ((ts.AddTrustedCertificate c).IsTrustedCertificate c = true) ∧
    (∀ c2 : Cert, c2.subject = c.subject → c2.spki = c.spki →
      (ts.AddTrustedCertificate c).IsTrustedCertificate c2 = true) ∧
    (∀ ds : List Cert, ts.IsTrustedCertificate c = true →
      (ds.foldl TrustStore.AddTrustedCertificate ts).IsTrustedCertificate c = true) := by
  refine ⟨?_, ?_, ?_, ?_⟩
  · rw [IsTrustedCertificate_eq_true_iff]
    constructor
    · rintro ⟨a, ha, hs, hid2 | hspki⟩
      · exact ⟨a, ha, Or.inl hid2⟩
      · exact ⟨a, ha, Or.inr ⟨hs, hspki⟩⟩
    · rintro ⟨a, ha, hid2 | ⟨hs, hspki⟩⟩
      · obtain ⟨hs, hspki⟩ := hid a ha hid2
        exact ⟨a, ha, hs, Or.inl hid2⟩
      · exact ⟨a, ha, hs, Or.inr hspki⟩
  · exact IsTrustedCertificate_eq_true_iff.mpr
      ⟨c, by simp [TrustStore.AddTrustedCertificate], rfl, Or.inl rfl⟩
  · intro c2 hs hspki
    exact IsTrustedCertificate_eq_true_iff.mpr
      ⟨c, by simp [TrustStore.AddTrustedCertificate], hs.symm, Or.inr hspki.symm⟩
  · exact fun ds => IsTrustedCertificate_foldl_mono ds ts c

/-- Witness for the C3 theorem at a concrete store holding two anchors and a
distinct certificate object sharing the first anchor's subject and SPKI. -/
theorem IsTrustedCertificate_spec_witness :
    (∀ a ∈ tsEx.anchors, a.id = certAnchDupe.id →
        a.subject = certAnchDupe.subject ∧ a.spki = certAnchDupe.spki) ∧
    ((tsEx.IsTrustedCertificate certAnchDupe = true ↔
      ∃ a ∈ tsEx.anchors, a.id = certAnchDupe.id ∨
        (a.subject = certAnchDupe.subject ∧ a.spki = certAnchDupe.spki)) ∧
    ((tsEx.AddTrustedCertificate certAnchDupe).IsTrustedCertificate certAnchDupe = true) ∧
    (∀ c2 : Cert, c2.subject = certAnchDupe.subject → c2.spki = certAnchDupe.spki →
      (tsEx.AddTrustedCertificate certAnchDupe).IsTrustedCertificate c2 = true) ∧
    (∀ ds : List Cert, tsEx.IsTrustedCertificate certAnchDupe = true →
      (ds.foldl TrustStore.AddTrustedCertificate tsEx).IsTrustedCertificate certAnchDupe = true)) :=
  ⟨by decide, IsTrustedCertificate_spec tsEx certAnchDupe (by decide)⟩

/-- C2: `Result::error()` returns the sentinel ERR_CERT_AUTHORITY_INVALID
exactly when the paths list is empty, and otherwise returns the error stored
in the `ResultPath` at `best_result_index`. -/
theorem Result_error_spec (r : Result) :
    (r.paths = [] → r.error = ERR_CERT_AUTHORITY_INVALID) ∧
    (∀ h : r.best_result_index < r.paths.length,
      r.error = (r.paths.get ⟨r.best_result_index, h⟩).error) := by
  constructor
  · intro h
    simp [Result.error, h]
  · intro h
    have hne : r.paths.isEmpty = false := by
      rcases hp : r.paths with _ | ⟨a, l⟩
      · rw [hp] at h; simp at h
      · simp
    rw [Result.error, hne]
    simp only [Bool.false_eq_true, if_false]
    rw [List.getD_eq_getElem r.paths ResultPath.default h]
    rfl

/-- Witness for the C2 theorem: a two-path result with best index 1, and the
empty result. -/
theorem Result_error_spec_witness :
    (rTwo.best_result_index < rTwo.paths.length ∧ rTwo.error = OK) ∧
    (Result.empty.paths = [] ∧ Result.empty.error = ERR_CERT_AUTHORITY_INVALID) :=
  ⟨⟨by decide, ((Result_error_spec rTwo).2 (by decide)).trans (by decide)⟩,
   ⟨rfl, (Result_error_spec Result.empty).1 rfl⟩⟩

/-- C1: for every completed run that attempts at least one path,
`best_result_index` is the index of the first attempted `ResultPath` whose
error is OK if any attempt succeeded, and otherwise the index of the last
(most recently appended) entry of `Result.paths`; moreover the same held at
every intermediate stage while the attempts were being appended (the first
success becomes and remains best). -/
theorem Run_best_result_index_spec (cfg : Config) (verify : List Cert → Int) (callback : Bool)
    (h : (Run cfg verify callback).result.paths ≠ []) :
    (Run cfg verify callback).result.best_result_index
        = firstOkIndexOrLast (Run cfg verify callback).result.paths ∧
    ∀ k, 0 < k → k ≤ (Run cfg verify callback).result.paths.length →
      (((Run cfg verify callback).result.paths.take k).foldl
          AddResultPath Result.empty).best_result_index
        = firstOkIndexOrLast ((Run cfg verify callback).result.paths.take k) := by
  obtain ⟨ps, hfold, hpaths⟩ : ∃ ps : List ResultPath,
      (Run cfg verify callback).result = ps.foldl AddResultPath Result.empty ∧
      (Run cfg verify callback).result.paths = ps := by
    refine ⟨_, rfl, ?_⟩
    simpa [Result.empty] using foldl_AddResultPath_paths
      ((yieldedPaths (consumeTrace verify
        (certPathIter cfg callback (iterFuel cfg) [] cfg.target))).map
          (fun p => ResultPath.mk p (verify p))) Result.empty
  have hne : ps ≠ [] := by rw [hpaths] at h; exact h
  constructor
  · rw [hfold]
    have hp2 : (ps.foldl AddResultPath Result.empty).paths = ps := by
      simpa [Result.empty] using foldl_AddResultPath_paths ps Result.empty
    rw [hp2]
    exact (foldl_AddResultPath_best ps hne).1
  · intro k hk hkle
    rw [hpaths] at hkle ⊢
    have htk : ps.take k ≠ [] := by
      have : (ps.take k).length = k := by
        rw [List.length_take]
        omega
      intro hempty
      rw [hempty] at this
      simp at this
      omega
    exact (foldl_AddResultPath_best (ps.take k) htk).1

/-- Witness for the C1 theorem at the duplicate-intermediate run, which
attempts a failing path and then a successful one. -/
theorem Run_best_result_index_spec_witness :
    (Run cfgDup verifyDup true).result.paths ≠ [] ∧
    (Run cfgDup verifyDup true).result.best_result_index
      = firstOkIndexOrLast (Run cfgDup verifyDup true).result.paths :=
  ⟨by decide, (Run_best_result_index_spec cfgDup verifyDup true (by decide)).1⟩



/-! ## Search engine lemmas -/

theorem joinEvents_append (l r : List (List Event)) :
    joinEvents (l ++ r) = joinEvents l ++ joinEvents r := by
  induction l with
  | nil => simp [joinEvents]
  | cons a rest ih => simp [joinEvents, ih]

theorem mem_joinEvents {e : Event} {ls : List (List Event)} :
    e ∈ joinEvents ls ↔ ∃ l ∈ ls, e ∈ l := by
  induction ls with
  | nil => simp [joinEvents]
  | cons a rest ih => simp [joinEvents, ih]

theorem yieldedPaths_append (a b : List Event) :
    yieldedPaths (a ++ b) = yieldedPaths a ++ yieldedPaths b := by
  induction a with
  | nil => simp [yieldedPaths]
  | cons e rest ih => cases e <;> simp [yieldedPaths, ih]

theorem mem_yieldedPaths {p : List Cert} {es : List Event} :
    p ∈ yieldedPaths es ↔ Event.yield p ∈ es := by
  induction es with
  | nil => simp [yieldedPaths]
  | cons e rest ih =>
    cases e with
    | asyncQuery s f => simp [yieldedPaths, ih]
    | yield q => simp [yieldedPaths, ih, List.mem_cons]

theorem hasAsyncQuery_append (a b : List Event) :
    hasAsyncQuery (a ++ b) = (hasAsyncQuery a || hasAsyncQuery b) := by
  induction a with
  | nil => simp [hasAsyncQuery]
  | cons e rest ih => cases e <;> simp [hasAsyncQuery, ih]

theorem countAsyncQueries_append (si : Nat) (a b : List Event) :
    countAsyncQueries si (a ++ b) = countAsyncQueries si a + countAsyncQueries si b := by
  induction a with
  | nil => simp [countAsyncQueries]
  | cons e rest ih =>
    cases e with
    | asyncQuery s fr =>
      simp only [List.cons_append, countAsyncQueries, List.append_eq, ih]
      omega
    | yield p =>
      simp only [List.cons_append, countAsyncQueries, List.append_eq, ih]

theorem countAsyncQueries_eq_zero {si : Nat} {es : List Event}
    (h : hasAsyncQuery es = false) : countAsyncQueries si es = 0 := by
  induction es with
  | nil => rfl
  | cons e rest ih =>
    cases e with
    | asyncQuery s f => simp [hasAsyncQuery] at h
    | yield p => exact ih (by simpa [hasAsyncQuery] using h)

theorem hasAsyncQuery_joinEvents {ls : List (List Event)}
    (h : ∀ l ∈ ls, hasAsyncQuery l = false) : hasAsyncQuery (joinEvents ls) = false := by
  induction ls with
  | nil => rfl
  | cons a rest ih =>
    have : joinEvents (a :: rest) = a ++ joinEvents rest := rfl
    rw [this, hasAsyncQuery_append]
    simp [h a (by simp), ih fun l hl => h l (by simp [hl])]

theorem mem_dedupByKeyAux {c : Cert} : ∀ (seen : List (List Nat × List Nat)) (l : List Cert),
    c ∈ dedupByKeyAux seen l → c ∈ l := by
  intro seen l
  induction l generalizing seen with
  | nil => simp [dedupByKeyAux]
  | cons a rest ih =>
    simp only [dedupByKeyAux]
    by_cases hm : a.key ∈ seen
    · rw [if_pos hm]
      intro h
      exact List.mem_cons_of_mem _ (ih _ h)
    · rw [if_neg hm]
      intro h
      rcases List.mem_cons.mp h with h1 | h2
      · exact h1 ▸ List.mem_cons_self _ _
      · exact List.mem_cons_of_mem _ (ih _ h2)

theorem dedupByKeyAux_key_not_seen {c : Cert} : ∀ (seen : List (List Nat × List Nat))
    (l : List Cert), c ∈ dedupByKeyAux seen l → c.key ∉ seen := by
  intro seen l
  induction l generalizing seen with
  | nil => simp [dedupByKeyAux]
  | cons a rest ih =>
    simp only [dedupByKeyAux]
    by_cases hm : a.key ∈ seen
    · rw [if_pos hm]
      exact ih seen
    · rw [if_neg hm]
      intro h
      rcases List.mem_cons.mp h with h1 | h2
      · exact h1 ▸ hm
      · intro hc
        exact ih _ h2 (List.mem_cons_of_mem _ hc)

theorem dedupByKeyAux_pairwise : ∀ (seen : List (List Nat × List Nat)) (l : List Cert),
    (dedupByKeyAux seen l).Pairwise (fun a b => a.key ≠ b.key) := by
  intro seen l
  induction l generalizing seen with
  | nil => simp [dedupByKeyAux]
  | cons a rest ih =>
    simp only [dedupByKeyAux]
    by_cases hm : a.key ∈ seen
    · rw [if_pos hm]
      exact ih seen
    · rw [if_neg hm]
      refine List.Pairwise.cons ?_ (ih _)
      intro b hb hab
      exact dedupByKeyAux_key_not_seen _ _ hb (by simp [hab])

theorem syncCandidates_mem {cfg : Config} {path : List Cert} {frontier : Cert} {c : Cert}
    (h : c ∈ syncCandidates cfg path frontier) :
    c ∈ allCerts cfg ∧ pathContainsKey path c = false := by
  simp only [syncCandidates] at h
  obtain ⟨h1, h2⟩ := List.mem_filter.mp h
  refine ⟨?_, by simpa using h2⟩
  have h3 := mem_dedupByKeyAux _ _ h1
  rw [List.mem_append] at h3
  rcases h3 with h3 | h3
  · rw [FindTrustAnchors_eq] at h3
    simp only [List.nil_append] at h3
    have := (mem_equalRange.mp h3).1
    simp [allCerts, this]
  · by_cases hif : (cfg.trust_store.FindTrustAnchorsByNormalizedName frontier.issuer []).isEmpty
    · rw [if_pos hif] at h3
      have := List.mem_of_mem_filter h3
      simp [allCerts, this]
    · rw [if_neg hif] at h3
      simp at h3

theorem asyncCandidates_mem {cfg : Config} {path : List Cert} {frontier : Cert}
    {tried : List Cert} {c : Cert} (h : c ∈ asyncCandidates cfg path frontier tried) :
    c ∈ allCerts cfg ∧ pathContainsKey path c = false ∧ pathContainsKey tried c = false := by
  simp only [asyncCandidates] at h
  obtain ⟨h1, h2⟩ := List.mem_filter.mp h
  have h3 := mem_dedupByKeyAux _ _ h1
  have h4 := List.mem_of_mem_filter h3
  have h5 : pathContainsKey path c = false ∧ pathContainsKey tried c = false := by
    simpa using h2
  exact ⟨by simp [allCerts, h4], h5.1, h5.2⟩

theorem length_filter_le_length_filter {α : Type} (l : List α) (p q : α → Bool)
    (hpq : ∀ x ∈ l, q x = true → p x = true) :
    (l.filter q).length ≤ (l.filter p).length := by
  induction l with
  | nil => simp
  | cons x xs ih =>
    have ih2 := ih (fun y hy => hpq y (List.mem_cons_of_mem _ hy))
    by_cases hq : q x = true
    · rw [List.filter_cons_of_pos hq, List.filter_cons_of_pos (hpq x (by simp) hq)]
      simpa using ih2
    · rw [List.filter_cons_of_neg (by simpa using hq)]
      by_cases hp : p x = true
      · rw [List.filter_cons_of_pos hp]
        simp only [List.length_cons]
        omega
      · rw [List.filter_cons_of_neg (by simpa using hp)]
        exact ih2

theorem length_filter_lt_length_filter {α : Type} (l : List α) (p q : α → Bool)
    (hpq : ∀ x ∈ l, q x = true → p x = true) (a : α) (ha : a ∈ l) (hp : p a = true)
    (hq : q a = false) :
    (l.filter q).length < (l.filter p).length := by
  induction l with
  | nil => simp at ha
  | cons x xs ih =>
    have hpq2 : ∀ y ∈ xs, q y = true → p y = true :=
      fun y hy => hpq y (List.mem_cons_of_mem _ hy)
    by_cases hax : x = a
    · subst hax
      rw [List.filter_cons_of_pos hp, List.filter_cons_of_neg (by simp [hq])]
      have := length_filter_le_length_filter xs p q hpq2
      simp only [List.length_cons]
      omega
    · have ha2 : a ∈ xs := by
        rcases List.mem_cons.mp ha with h1 | h2
        · exact absurd h1.symm hax
        · exact h2
      have ih2 := ih hpq2 ha2
      by_cases hqx : q x = true
      · rw [List.filter_cons_of_pos hqx, List.filter_cons_of_pos (hpq x (by simp) hqx)]
        simpa using ih2
      · rw [List.filter_cons_of_neg (by simpa using hqx)]
        by_cases hpx : p x = true
        · rw [List.filter_cons_of_pos hpx]
          simp only [List.length_cons]
          omega
        · rw [List.filter_cons_of_neg (by simpa using hpx)]
          exact ih2

theorem pathContainsKey_append (path : List Cert) (c d : Cert) :
    pathContainsKey (path ++ [c]) d = (pathContainsKey path d || decide (c.key = d.key)) := by
  simp [pathContainsKey, List.any_append]

theorem freshCount_lt {cfg : Config} {path : List Cert} {c : Cert}
    (hc : c ∈ allCerts cfg) (hnp : pathContainsKey path c = false) :
    freshCount cfg (path ++ [c]) < freshCount cfg path := by
  unfold freshCount
  refine length_filter_lt_length_filter (allCerts cfg) _ _ ?_ c hc ?_ ?_
  · intro x hx hqx
    simp only [decide_eq_true_eq] at hqx ⊢
    rw [pathContainsKey_append] at hqx
    intro hcontra
    exact hqx (by simp [hcontra])
  · simp [hnp]
  · simp [pathContainsKey_append]

theorem freshCount_le (cfg : Config) (path : List Cert) :
    freshCount cfg path ≤ (allCerts cfg).length :=
  (allCerts cfg).length_filter_le _

theorem certPathIter_fuel_congr (cfg : Config) (aa : Bool) :
    ∀ f1 f2 : Nat, ∀ stem : List Cert, ∀ frontier : Cert,
      freshCount cfg (stem ++ [frontier]) < f1 →
      freshCount cfg (stem ++ [frontier]) < f2 →
      certPathIter cfg aa f1 stem frontier = certPathIter cfg aa f2 stem frontier := by
  intro f1
  induction f1 using Nat.strong_induction_on with
  | _ f1 ihs =>
    intro f2 stem frontier h1 h2
    rcases f1 with _ | f1
    · exact absurd h1 (Nat.not_lt_zero _)
    rcases f2 with _ | f2
    · exact absurd h2 (Nat.not_lt_zero _)
    simp only [certPathIter]
    by_cases ht : cfg.trust_store.IsTrustedCertificate frontier = true
    · simp [ht]
    · simp only [ht, Bool.false_eq_true, if_false]
      have hcongS : ∀ c ∈ syncCandidates cfg (stem ++ [frontier]) frontier,
          certPathIter cfg aa f1 (stem ++ [frontier]) c
            = certPathIter cfg aa f2 (stem ++ [frontier]) c := by
        intro c hc
        obtain ⟨hall, hnp⟩ := syncCandidates_mem hc
        have hlt := freshCount_lt hall hnp
        exact ihs f1 (Nat.lt_succ_self _) f2 _ c (by omega) (by omega)
      have hcongA : ∀ c ∈ asyncCandidates cfg (stem ++ [frontier]) frontier
            (syncCandidates cfg (stem ++ [frontier]) frontier),
          certPathIter cfg aa f1 (stem ++ [frontier]) c
            = certPathIter cfg aa f2 (stem ++ [frontier]) c := by
        intro c hc
        obtain ⟨hall, hnp, _⟩ := asyncCandidates_mem hc
        have hlt := freshCount_lt hall hnp
        exact ihs f1 (Nat.lt_succ_self _) f2 _ c (by omega) (by omega)
      rw [List.map_congr_left hcongS, List.map_congr_left hcongA]



theorem range_map_zero (n : Nat) : (List.range n).map (fun _ => (0 : Nat)) = List.replicate n 0 := by
  induction n with
  | zero => rfl
  | succ k ih => rw [List.range_succ, List.map_append, ih, List.replicate_succ']; rfl

/-- C4: the depth-first search over any finite configuration of issuer
sources — even one supplying cyclic certificates — is exhausted within the
finite budget `iterFuel`: driving the run with any larger budget produces
the identical completed outcome, so a `Run` driven to completion always
terminates after finitely many candidate paths. -/
theorem RunWithFuel_exhausts (cfg : Config) (verify : List Cert → Int) (callback : Bool)
    (fuel : Nat) (h : iterFuel cfg ≤ fuel) :
    RunWithFuel cfg verify callback fuel = Run cfg verify callback := by
  have hfresh : freshCount cfg ([] ++ [cfg.target]) ≤ (allCerts cfg).length := by
    simpa using freshCount_le cfg [cfg.target]
  have hiter := certPathIter_fuel_congr cfg callback fuel (iterFuel cfg) [] cfg.target
    (by simp only [iterFuel] at h; omega) (by simp only [iterFuel]; omega)
  unfold Run RunWithFuel
  rw [hiter]

/-- Witness for the C4 theorem: the cyclic configuration (A issued by B
issued by A, nothing trusted) driven with budget 10 completes identically
to its own bound. -/
theorem RunWithFuel_exhausts_witness :
    iterFuel cfgCycle ≤ 10 ∧
    RunWithFuel cfgCycle verifyNone true 10 = Run cfgCycle verifyNone true :=
  ⟨by decide, RunWithFuel_exhausts cfgCycle verifyNone true 10 (by decide)⟩

/-- C5: when the target certificate is itself a configured trust anchor and
the external verifier accepts the trivial path (RFC 5280 validation of a
single trust anchor succeeds), `Run` completes synchronously with exactly
one attempted path of length 1 containing only the target, zero
asynchronous queries, and `Result::error() = OK`. -/
theorem Run_target_is_anchor (cfg : Config) (verify : List Cert → Int) (callback : Bool)
    (ht : cfg.trust_store.IsTrustedCertificate cfg.target = true)
    (hv : verify [cfg.target] = OK) :
    Run cfg verify callback = ⟨CompletionStatus.SYNC, ⟨[⟨[cfg.target], OK⟩], 0⟩,
      List.replicate cfg.sources.length 0⟩ ∧
    (Run cfg verify callback).result.error = OK := by
  have htrace : certPathIter cfg callback (iterFuel cfg) [] cfg.target
      = [Event.yield [cfg.target]] := by
    rw [iterFuel]
    simp [certPathIter, ht]
  have hmain : Run cfg verify callback = ⟨CompletionStatus.SYNC, ⟨[⟨[cfg.target], OK⟩], 0⟩,
      List.replicate cfg.sources.length 0⟩ := by
    unfold Run RunWithFuel
    rw [htrace]
    dsimp only
    have hcons : consumeTrace verify [Event.yield [cfg.target]] = [Event.yield [cfg.target]] := by
      simp [consumeTrace, isOkYield, hv]
    rw [hcons]
    simp only [yieldedPaths, List.map_cons, List.map_nil, hv, List.foldl_cons, List.foldl_nil,
      hasAsyncQuery, RunOutcome.mk.injEq]
    refine ⟨rfl, ?_, ?_⟩
    · simp [AddResultPath, Result.empty]
    · have hz : ∀ si ∈ List.range cfg.sources.length,
          countAsyncQueries si [Event.yield [cfg.target]] = (fun _ => (0 : Nat)) si :=
        fun si _ => rfl
      rw [List.map_congr_left hz, range_map_zero]
  refine ⟨hmain, ?_⟩
  rw [hmain]
  rfl

/-- Witness for the C5 theorem: a self-issued certificate that is both the
target and the only anchor. -/
theorem Run_target_is_anchor_witness :
    (cfgSelf.trust_store.IsTrustedCertificate cfgSelf.target = true ∧
     verifySelf [cfgSelf.target] = OK) ∧
    (Run cfgSelf verifySelf true = ⟨CompletionStatus.SYNC, ⟨[⟨[cfgSelf.target], OK⟩], 0⟩,
      List.replicate cfgSelf.sources.length 0⟩ ∧
    (Run cfgSelf verifySelf true).result.error = OK) :=
  ⟨⟨by decide, by decide⟩, Run_target_is_anchor cfgSelf verifySelf true (by decide) (by decide)⟩



theorem mem_yieldedPaths_joinEvents {p : List Cert} {w : List Cert} {f : Cert → List Event}
    (h : p ∈ yieldedPaths (joinEvents (w.map f))) : ∃ c ∈ w, p ∈ yieldedPaths (f c) := by
  rw [mem_yieldedPaths] at h
  obtain ⟨l, hl, hel⟩ := mem_joinEvents.mp h
  obtain ⟨c, hc, rfl⟩ := List.mem_map.mp hl
  exact ⟨c, hc, mem_yieldedPaths.mpr hel⟩

theorem yieldedPaths_queries (l : List Nat) (fr : Cert) :
    yieldedPaths (l.map (fun si => Event.asyncQuery si fr)) = [] := by
  induction l with
  | nil => rfl
  | cons a rest ih => simp [yieldedPaths, ih]

theorem consumeTrace_prefix (verify : List Cert → Int) : ∀ es : List Event,
    ∃ suffix, es = consumeTrace verify es ++ suffix := by
  intro es
  induction es with
  | nil => exact ⟨[], rfl⟩
  | cons e rest ih =>
    by_cases h : isOkYield verify e = true
    · exact ⟨rest, by simp [consumeTrace, h]⟩
    · obtain ⟨suf, hs⟩ := ih
      refine ⟨suf, ?_⟩
      rw [consumeTrace, if_neg h]
      simpa using hs

theorem yield_extends (cfg : Config) (aa : Bool) : ∀ (fuel : Nat) (stem : List Cert)
    (frontier : Cert) (p : List Cert),
    p ∈ yieldedPaths (certPathIter cfg aa fuel stem frontier) →
    ∃ rest, p = stem ++ [frontier] ++ rest := by
  intro fuel
  induction fuel with
  | zero => intro stem frontier p h; simp [certPathIter, yieldedPaths] at h
  | succ f ih =>
    intro stem frontier p h
    simp only [certPathIter] at h
    by_cases ht : cfg.trust_store.IsTrustedCertificate frontier = true
    · rw [if_pos ht] at h
      simp [yieldedPaths] at h
      exact ⟨[], by simp [h]⟩
    · rw [if_neg ht] at h
      have hstep : ∀ c ∈ (syncCandidates cfg (stem ++ [frontier]) frontier)
            ++ asyncCandidates cfg (stem ++ [frontier]) frontier
              (syncCandidates cfg (stem ++ [frontier]) frontier),
          p ∈ yieldedPaths (certPathIter cfg aa f (stem ++ [frontier]) c) →
          ∃ rest, p = stem ++ [frontier] ++ rest := by
        intro c _ hp
        obtain ⟨r, hr⟩ := ih (stem ++ [frontier]) c p hp
        exact ⟨c :: r, by simp [hr]⟩
      by_cases hcond : aa = true ∧
          (cfg.trust_store.FindTrustAnchorsByNormalizedName frontier.issuer []).isEmpty = true
      · rw [if_pos hcond] at h
        rw [yieldedPaths_append, yieldedPaths_append, yieldedPaths_queries] at h
        rcases List.mem_append.mp h with h1 | h2
        · rcases List.mem_append.mp h1 with h3 | h3
          · obtain ⟨c, hc, hp⟩ := mem_yieldedPaths_joinEvents h3
            exact hstep c (List.mem_append_left _ hc) hp
          · simp at h3
        · obtain ⟨c, hc, hp⟩ := mem_yieldedPaths_joinEvents h2
          exact hstep c (List.mem_append_right _ hc) hp
      · rw [if_neg hcond] at h
        obtain ⟨c, hc, hp⟩ := mem_yieldedPaths_joinEvents h
        exact hstep c (List.mem_append_left _ hc) hp

theorem yield_anchor_structure (cfg : Config) (aa : Bool) : ∀ (fuel : Nat) (stem : List Cert)
    (frontier : Cert) (p : List Cert),
    (∀ c ∈ stem, cfg.trust_store.IsTrustedCertificate c = false) →
    p ∈ yieldedPaths (certPathIter cfg aa fuel stem frontier) →
    ∃ q a, p = q ++ [a] ∧ cfg.trust_store.IsTrustedCertificate a = true ∧
      ∀ c ∈ q, cfg.trust_store.IsTrustedCertificate c = false := by
  intro fuel
  induction fuel with
  | zero => intro stem frontier p _ h; simp [certPathIter, yieldedPaths] at h
  | succ f ih =>
    intro stem frontier p hstem h
    simp only [certPathIter] at h
    by_cases ht : cfg.trust_store.IsTrustedCertificate frontier = true
    · rw [if_pos ht] at h
      simp [yieldedPaths] at h
      exact ⟨stem, frontier, by simp [h], ht, hstem⟩
    · rw [if_neg ht] at h
      have hstem2 : ∀ c ∈ stem ++ [frontier], cfg.trust_store.IsTrustedCertificate c = false := by
        intro c hc
        rcases List.mem_append.mp hc with h1 | h1
        · exact hstem c h1
        · simp at h1
          rw [h1]
          exact Bool.eq_false_iff.mpr ht
      by_cases hcond : aa = true ∧
          (cfg.trust_store.FindTrustAnchorsByNormalizedName frontier.issuer []).isEmpty = true
      · rw [if_pos hcond] at h
        rw [yieldedPaths_append, yieldedPaths_append, yieldedPaths_queries] at h
        rcases List.mem_append.mp h with h1 | h2
        · rcases List.mem_append.mp h1 with h3 | h3
          · obtain ⟨c, _, hp⟩ := mem_yieldedPaths_joinEvents h3
            exact ih (stem ++ [frontier]) c p hstem2 hp
          · simp at h3
        · obtain ⟨c, _, hp⟩ := mem_yieldedPaths_joinEvents h2
          exact ih (stem ++ [frontier]) c p hstem2 hp
      · rw [if_neg hcond] at h
        obtain ⟨c, _, hp⟩ := mem_yieldedPaths_joinEvents h
        exact ih (stem ++ [frontier]) c p hstem2 hp

/-- C8: every attempted path of every run ends at the first configured trust
anchor on it: its final certificate is a trust anchor and no earlier
certificate on it is one, so the builder yields the path ending at a trust
anchor and never extends past it even when longer also-valid continuations
exist — in particular the best path contains no certificates beyond the
first anchor reached. -/
theorem Run_path_ends_at_first_anchor (cfg : Config) (verify : List Cert → Int)
    (callback : Bool) (rp : ResultPath) (h : rp ∈ (Run cfg verify callback).result.paths) :
    ∃ q a, rp.path = q ++ [a] ∧ cfg.trust_store.IsTrustedCertificate a = true ∧
      ∀ c ∈ q, cfg.trust_store.IsTrustedCertificate c = false := by
  have hpaths : (Run cfg verify callback).result.paths
      = (yieldedPaths (consumeTrace verify
          (certPathIter cfg callback (iterFuel cfg) [] cfg.target))).map
            (fun p => ResultPath.mk p (verify p)) := by
    show (List.foldl AddResultPath Result.empty _).paths = _
    simpa [Result.empty] using foldl_AddResultPath_paths
      ((yieldedPaths (consumeTrace verify
        (certPathIter cfg callback (iterFuel cfg) [] cfg.target))).map
          (fun p => ResultPath.mk p (verify p))) Result.empty
  rw [hpaths] at h
  obtain ⟨p, hp, rfl⟩ := List.mem_map.mp h
  obtain ⟨suf, hs⟩ := consumeTrace_prefix verify
    (certPathIter cfg callback (iterFuel cfg) [] cfg.target)
  have hfull : p ∈ yieldedPaths (certPathIter cfg callback (iterFuel cfg) [] cfg.target) := by
    rw [hs, yieldedPaths_append]
    exact List.mem_append_left _ hp
  exact yield_anchor_structure cfg callback _ [] cfg.target p (by simp) hfull

/-- Witness for the C8 theorem: in the long-chain scenario the single
attempted path stops at the anchor C-by-D although the also-valid
continuation through D-by-D exists. -/
theorem Run_path_ends_at_first_anchor_witness :
    (⟨[certA8, certBC8, certCD8], OK⟩ : ResultPath) ∈ (Run cfgLong verifyLong true).result.paths ∧
    ∃ q a, ((⟨[certA8, certBC8, certCD8], OK⟩ : ResultPath)).path = q ++ [a] ∧
      cfgLong.trust_store.IsTrustedCertificate a = true ∧
      ∀ c ∈ q, cfgLong.trust_store.IsTrustedCertificate c = false :=
  ⟨by decide, Run_path_ends_at_first_anchor cfgLong verifyLong true _ (by decide)⟩



theorem certPathIter_sync_no_async (cfg : Config) : ∀ (fuel : Nat) (stem : List Cert)
    (frontier : Cert), hasAsyncQuery (certPathIter cfg false fuel stem frontier) = false := by
  intro fuel
  induction fuel with
  | zero => intro stem frontier; rfl
  | succ f ih =>
    intro stem frontier
    simp only [certPathIter]
    by_cases ht : cfg.trust_store.IsTrustedCertificate frontier = true
    · rw [if_pos ht]
      rfl
    · rw [if_neg ht, if_neg (fun hc => Bool.false_ne_true hc.1)]
      apply hasAsyncQuery_joinEvents
      intro l hl
      obtain ⟨c, _, rfl⟩ := List.mem_map.mp hl
      exact ih _ c

theorem collectSync_strip (srcs : List CertIssuerSource) :
    collectSync (srcs.map (fun s => { s with async := [] })) = collectSync srcs := by
  induction srcs with
  | nil => rfl
  | cons s rest ih => simp [collectSync, ih]

theorem collectAsync_strip (srcs : List CertIssuerSource) :
    collectAsync (srcs.map (fun s => { s with async := [] })) = [] := by
  induction srcs with
  | nil => rfl
  | cons s rest ih => simp [collectAsync, ih]

theorem syncCandidates_strip (cfg : Config) (path : List Cert) (frontier : Cert) :
    syncCandidates (stripAsyncCerts cfg) path frontier = syncCandidates cfg path frontier := by
  simp [syncCandidates, stripAsyncCerts, collectSync_strip]

theorem asyncCandidates_strip (cfg : Config) (path : List Cert) (frontier : Cert)
    (tried : List Cert) :
    asyncCandidates (stripAsyncCerts cfg) path frontier tried = [] := by
  simp [asyncCandidates, stripAsyncCerts, collectAsync_strip, issuersMatching, dedupByKey,
    dedupByKeyAux]

theorem yields_join_congr {w : List Cert} {f g : Cert → List Event}
    (h : ∀ c ∈ w, yieldedPaths (f c) = yieldedPaths (g c)) :
    yieldedPaths (joinEvents (w.map f)) = yieldedPaths (joinEvents (w.map g)) := by
  induction w with
  | nil => rfl
  | cons c rest ih =>
    rw [show joinEvents ((c :: rest).map f) = f c ++ joinEvents (rest.map f) from rfl,
      show joinEvents ((c :: rest).map g) = g c ++ joinEvents (rest.map g) from rfl,
      yieldedPaths_append, yieldedPaths_append, h c (by simp),
      ih (fun d hd => h d (by simp [hd]))]

theorem yields_strip (cfg : Config) : ∀ (fuel : Nat) (stem : List Cert) (frontier : Cert),
    yieldedPaths (certPathIter cfg false fuel stem frontier)
      = yieldedPaths (certPathIter (stripAsyncCerts cfg) true fuel stem frontier) := by
  intro fuel
  induction fuel with
  | zero => intro stem frontier; rfl
  | succ f ih =>
    intro stem frontier
    have hts : (stripAsyncCerts cfg).trust_store = cfg.trust_store := rfl
    simp only [certPathIter, hts]
    by_cases ht : cfg.trust_store.IsTrustedCertificate frontier = true
    · rw [if_pos ht, if_pos ht]
    · rw [if_neg ht, if_neg ht, if_neg (fun hc => Bool.false_ne_true hc.1)]
      rw [syncCandidates_strip]
      by_cases hemp :
          (cfg.trust_store.FindTrustAnchorsByNormalizedName frontier.issuer []).isEmpty = true
      · rw [if_pos ⟨by trivial, hemp⟩]
        rw [yieldedPaths_append, yieldedPaths_append, yieldedPaths_queries,
          asyncCandidates_strip]
        have hasync : joinEvents (([] : List Cert).map
            (fun c => certPathIter (stripAsyncCerts cfg) true f (stem ++ [frontier]) c)) = [] := rfl
        rw [hasync]
        simp only [List.append_nil, yieldedPaths]
        exact yields_join_congr (fun c _ => ih (stem ++ [frontier]) c)
      · rw [if_neg (fun hc => hemp hc.2)]
        exact yields_join_congr (fun c _ => ih (stem ++ [frontier]) c)

theorem yieldedPaths_consumeTrace (verify : List Cert → Int) : ∀ es : List Event,
    yieldedPaths (consumeTrace verify es) = attemptsUpToFirstOk verify (yieldedPaths es) := by
  intro es
  induction es with
  | nil => rfl
  | cons e rest ih =>
    cases e with
    | asyncQuery s fr =>
      rw [show consumeTrace verify (Event.asyncQuery s fr :: rest)
          = Event.asyncQuery s fr :: consumeTrace verify rest from by
        simp [consumeTrace, isOkYield]]
      rw [show yieldedPaths (Event.asyncQuery s fr :: rest) = yieldedPaths rest from rfl]
      rw [show yieldedPaths (Event.asyncQuery s fr :: consumeTrace verify rest)
          = yieldedPaths (consumeTrace verify rest) from rfl]
      exact ih
    | yield p =>
      by_cases h : verify p = OK
      · rw [show consumeTrace verify (Event.yield p :: rest) = [Event.yield p] from by
          simp [consumeTrace, isOkYield, h]]
        simp [yieldedPaths, attemptsUpToFirstOk, h]
      · rw [show consumeTrace verify (Event.yield p :: rest)
            = Event.yield p :: consumeTrace verify rest from by
          simp [consumeTrace, isOkYield, h]]
        simp only [yieldedPaths, attemptsUpToFirstOk, if_neg h]
        rw [ih]

/-- C9: with a null callback, `Run` operates in synchronous-only mode: it
completes synchronously (`CompletionStatus::SYNC`), queries no asynchronous
source (every query count is zero), and its attempted paths are exactly
those of a run over the same configuration with every asynchronous
certificate removed — the paths discoverable from synchronously supplied
issuers alone, even when an asynchronous source could have supplied a
certificate completing a valid path. -/
theorem Run_null_callback_sync_only (cfg : Config) (verify : List Cert → Int) :
    (Run cfg verify false).status = CompletionStatus.SYNC ∧
    (Run cfg verify false).asyncGets = List.replicate cfg.sources.length 0 ∧
    (Run cfg verify false).result.paths = (Run (stripAsyncCerts cfg) verify true).result.paths := by
  have hna : hasAsyncQuery (certPathIter cfg false (iterFuel cfg) [] cfg.target) = false :=
    certPathIter_sync_no_async cfg _ [] cfg.target
  have hnac : hasAsyncQuery (consumeTrace verify
      (certPathIter cfg false (iterFuel cfg) [] cfg.target)) = false := by
    obtain ⟨suf, hs⟩ := consumeTrace_prefix verify
      (certPathIter cfg false (iterFuel cfg) [] cfg.target)
    rw [hs, hasAsyncQuery_append] at hna
    exact (Bool.or_eq_false_iff.mp hna).1
  refine ⟨?_, ?_, ?_⟩
  · show (if hasAsyncQuery _ = true then CompletionStatus.ASYNC else CompletionStatus.SYNC) = _
    rw [hnac]
    rfl
  · show (List.range cfg.sources.length).map _ = _
    have hz : ∀ si ∈ List.range cfg.sources.length,
        countAsyncQueries si (consumeTrace verify
          (certPathIter cfg false (iterFuel cfg) [] cfg.target)) = (fun _ => (0 : Nat)) si :=
      fun si _ => countAsyncQueries_eq_zero hnac
    rw [List.map_congr_left hz, range_map_zero]
  · have hL : (Run cfg verify false).result.paths
        = (attemptsUpToFirstOk verify (yieldedPaths
            (certPathIter cfg false (iterFuel cfg) [] cfg.target))).map
              (fun p => ResultPath.mk p (verify p)) := by
      show (List.foldl AddResultPath Result.empty _).paths = _
      rw [foldl_AddResultPath_paths, yieldedPaths_consumeTrace]
      rfl
    have hR : (Run (stripAsyncCerts cfg) verify true).result.paths
        = (attemptsUpToFirstOk verify (yieldedPaths
            (certPathIter (stripAsyncCerts cfg) true (iterFuel (stripAsyncCerts cfg)) []
              cfg.target))).map (fun p => ResultPath.mk p (verify p)) := by
      show (List.foldl AddResultPath Result.empty _).paths = _
      rw [foldl_AddResultPath_paths, yieldedPaths_consumeTrace]
      rfl
    have hlen : (allCerts (stripAsyncCerts cfg)).length ≤ (allCerts cfg).length := by
      simp only [allCerts, stripAsyncCerts, collectSync_strip, collectAsync_strip,
        List.length_append, List.length_nil]
      omega
    have hfr : freshCount (stripAsyncCerts cfg) ([] ++ [cfg.target])
        ≤ (allCerts (stripAsyncCerts cfg)).length := by
      simpa using freshCount_le (stripAsyncCerts cfg) [cfg.target]
    have hfuel : certPathIter (stripAsyncCerts cfg) true (iterFuel (stripAsyncCerts cfg)) []
          cfg.target
        = certPathIter (stripAsyncCerts cfg) true (iterFuel cfg) [] cfg.target := by
      apply certPathIter_fuel_congr
      · simp only [iterFuel]
        omega
      · simp only [iterFuel]
        omega
    rw [hL, hR, hfuel, ← yields_strip cfg (iterFuel cfg) [] cfg.target]



theorem pathContainsKey_false {l : List Cert} {d : Cert} (h : pathContainsKey l d = false) :
    ∀ c ∈ l, c.key ≠ d.key := by
  intro c hc
  simp only [pathContainsKey, List.any_eq_false, decide_eq_true_eq] at h
  exact h c hc

theorem syncCandidates_pairwise (cfg : Config) (path : List Cert) (frontier : Cert) :
    (syncCandidates cfg path frontier).Pairwise (fun a b => a.key ≠ b.key) := by
  simp only [syncCandidates]
  exact (dedupByKeyAux_pairwise [] _).sublist (List.filter_sublist _)

theorem asyncCandidates_pairwise (cfg : Config) (path : List Cert) (frontier : Cert)
    (tried : List Cert) :
    (asyncCandidates cfg path frontier tried).Pairwise (fun a b => a.key ≠ b.key) := by
  simp only [asyncCandidates]
  exact (dedupByKeyAux_pairwise [] _).sublist (List.filter_sublist _)

theorem pairwise_yields_join (cfg : Config) (aa : Bool) (fuel : Nat) (path : List Cert) :
    ∀ w : List Cert, w.Pairwise (fun a b => a.key ≠ b.key) →
    (∀ c ∈ w, (yieldedPaths (certPathIter cfg aa fuel path c)).Pairwise
      (fun p q => keySeq p ≠ keySeq q)) →
    (yieldedPaths (joinEvents (w.map (fun c => certPathIter cfg aa fuel path c)))).Pairwise
      (fun p q => keySeq p ≠ keySeq q) := by
  intro w
  induction w with
  | nil => intro _ _; simp [joinEvents, yieldedPaths]
  | cons c rest ih =>
    intro hw hin
    rw [show joinEvents ((c :: rest).map (fun c => certPathIter cfg aa fuel path c))
        = certPathIter cfg aa fuel path c
          ++ joinEvents (rest.map (fun c => certPathIter cfg aa fuel path c)) from rfl,
      yieldedPaths_append, List.pairwise_append]
    obtain ⟨hhead, htail⟩ := List.pairwise_cons.mp hw
    refine ⟨hin c (by simp), ih htail (fun d hd => hin d (by simp [hd])), ?_⟩
    intro p hp q hq
    obtain ⟨d, hd, hqd⟩ := mem_yieldedPaths_joinEvents hq
    obtain ⟨r1, hr1⟩ := yield_extends cfg aa fuel path c p hp
    obtain ⟨r2, hr2⟩ := yield_extends cfg aa fuel path d q hqd
    have hkey : c.key ≠ d.key := hhead d hd
    intro he
    apply hkey
    rw [hr1, hr2] at he
    have he2 : keySeq path ++ (c.key :: keySeq r1) = keySeq path ++ (d.key :: keySeq r2) := by
      simpa [keySeq, List.map_append] using he
    have he3 := List.append_cancel_left he2
    simp only [List.cons.injEq] at he3
    exact he3.1

theorem yields_pairwise (cfg : Config) (aa : Bool) : ∀ (fuel : Nat) (stem : List Cert)
    (frontier : Cert),
    (yieldedPaths (certPathIter cfg aa fuel stem frontier)).Pairwise
      (fun p q => keySeq p ≠ keySeq q) := by
  intro fuel
  induction fuel with
  | zero => intro stem frontier; simp [certPathIter, yieldedPaths]
  | succ f ih =>
    intro stem frontier
    simp only [certPathIter]
    by_cases ht : cfg.trust_store.IsTrustedCertificate frontier = true
    · rw [if_pos ht]
      simp [yieldedPaths]
    · rw [if_neg ht]
      by_cases hcond : aa = true ∧
          (cfg.trust_store.FindTrustAnchorsByNormalizedName frontier.issuer []).isEmpty = true
      · rw [if_pos hcond]
        rw [yieldedPaths_append, yieldedPaths_append, yieldedPaths_queries, List.append_nil]
        have hcomb : yieldedPaths (joinEvents (((syncCandidates cfg (stem ++ [frontier]) frontier)
              ++ asyncCandidates cfg (stem ++ [frontier]) frontier
                (syncCandidates cfg (stem ++ [frontier]) frontier)).map
                  (fun c => certPathIter cfg aa f (stem ++ [frontier]) c)))
            = yieldedPaths (joinEvents ((syncCandidates cfg (stem ++ [frontier]) frontier).map
                (fun c => certPathIter cfg aa f (stem ++ [frontier]) c)))
              ++ yieldedPaths (joinEvents ((asyncCandidates cfg (stem ++ [frontier]) frontier
                (syncCandidates cfg (stem ++ [frontier]) frontier)).map
                  (fun c => certPathIter cfg aa f (stem ++ [frontier]) c))) := by
          rw [List.map_append, joinEvents_append, yieldedPaths_append]
        rw [← hcomb]
        apply pairwise_yields_join
        · rw [List.pairwise_append]
          refine ⟨syncCandidates_pairwise cfg _ frontier, asyncCandidates_pairwise cfg _ frontier _, ?_⟩
          intro c hc d hd
          have hnd := (asyncCandidates_mem hd).2.2
          exact (pathContainsKey_false hnd c hc)
        · intro c _
          exact ih (stem ++ [frontier]) c
      · rw [if_neg hcond]
        apply pairwise_yields_join
        · exact syncCandidates_pairwise cfg _ frontier
        · intro c _
          exact ih (stem ++ [frontier]) c

/-- C7: duplicate supply never produces duplicate attempts: in every run the
attempted paths are pairwise distinct as Name+SPKI key sequences, so an
issuer certificate supplied by two different sources (as two distinct
objects) or twice by one source is tried only once; in the mirrored
duplicate-intermediate scenario the doubly-supplied old intermediate occurs
in exactly one of the exactly two attempted paths. -/
theorem Run_attempts_distinct :
    (∀ (cfg : Config) (verify : List Cert → Int) (callback : Bool),
      ((Run cfg verify callback).result.paths.map (fun rp => keySeq rp.path)).Pairwise (· ≠ ·)) ∧
    pathsThroughKey (Run cfgDup verifyDup true).result ([2], [20]) = 1 ∧
    (Run cfgDup verifyDup true).result.paths.length = 2 := by
  refine ⟨?_, by decide, by decide⟩
  intro cfg verify callback
  have hpaths : (Run cfg verify callback).result.paths
      = (yieldedPaths (consumeTrace verify
          (certPathIter cfg callback (iterFuel cfg) [] cfg.target))).map
            (fun p => ResultPath.mk p (verify p)) := by
    show (List.foldl AddResultPath Result.empty _).paths = _
    rw [foldl_AddResultPath_paths]
    rfl
  rw [hpaths, List.map_map]
  rw [List.pairwise_map]
  obtain ⟨suf, hs⟩ := consumeTrace_prefix verify
    (certPathIter cfg callback (iterFuel cfg) [] cfg.target)
  have hsub : List.Sublist
      (yieldedPaths (consumeTrace verify
        (certPathIter cfg callback (iterFuel cfg) [] cfg.target)))
      (yieldedPaths (certPathIter cfg callback (iterFuel cfg) [] cfg.target)) := by
    conv_rhs => rw [hs]
    rw [yieldedPaths_append]
    exact List.sublist_append_left _ _
  exact ((yields_pairwise cfg callback (iterFuel cfg) [] cfg.target).sublist hsub).imp
    (fun hne => hne)



/-- Counterexample to C6: in the dead-end configuration a valid path
(target, Y, anchor) is discoverable from synchronously supplied issuers
alone — the synchronous-only run finds it and reports OK — yet the run with
a callback explores the dead end X first, exhausts X's synchronous worklist,
and issues one asynchronous query against each registered source (including
the purely asynchronous one) before backtracking to the successful path: it
completes ASYNC with nonzero asynchronous query counts. -/
theorem Run_sync_discoverable_counterexample :
    (Run cfgDeadEnd verifyDeadEnd false).result.error = OK ∧
    (Run cfgDeadEnd verifyDeadEnd false).status = CompletionStatus.SYNC ∧
    (Run cfgDeadEnd verifyDeadEnd true).result.error = OK ∧
    (Run cfgDeadEnd verifyDeadEnd true).asyncGets = [1, 1] ∧
    (Run cfgDeadEnd verifyDeadEnd true).status = CompletionStatus.ASYNC :=
  ⟨by decide, by decide, by decide, by decide, by decide⟩

/-- C6 amended: synchronous candidates are exhausted before asynchronous
sources are consulted per frontier certificate, not globally; in the cited
scenario — the anchor reachable in two hops through the synchronous source
and two hops through the asynchronous source, with the successful
synchronous path explored before any frontier exhausts its worklist — `Run`
completes with `CompletionStatus::SYNC`, reports OK, and every asynchronous
source's query count is zero. -/
theorem Run_tries_sync_first_scenario :
    (Run cfgSyncFirst verifySyncFirst true).status = CompletionStatus.SYNC ∧
    (Run cfgSyncFirst verifySyncFirst true).asyncGets = [0, 0] ∧
    (Run cfgSyncFirst verifySyncFirst true).result.error = OK :=
  ⟨by decide, by decide, by decide⟩


end ChromiumNet
